import Mathlib

/-!
# Verification of the piq path-pattern compiler and query engine

Shallow embedding of the pattern compiler (`packages/core/src/path-pattern.ts`
and `packages/resolvers/src/markdown.ts`), the flattener
(`packages/core/src/undot.ts`), the query builders
(`packages/core/src/query.ts` and `packages/piqit/src/query.ts`) and the
frontmatter resolvers (`packages/resolvers/src/frontmatter.ts`, and the
`frontmatterResolver` in the resolvers package).

Strings are modelled as `List Char`.  JavaScript objects are modelled as
association lists in insertion order; assignment to an existing key replaces
the value in place (as JS does), otherwise it appends.  JavaScript regexes are
modelled by an explicit backtracking matcher over the exact regex fragment the
compilers emit, with the same preference order (greedy quantifiers try the
longest capture first, lazy ones the shortest; `(?:...)?` tries presence
first).
-/

namespace Piq

/-! ## Tokenizer (`tokenize` in `packages/core/src/path-pattern.ts`) -/

/-- Parameter kinds of the core pattern grammar. -/
inductive PType where
  | required
  | optional
  | splat
deriving DecidableEq, Repr

/-- Tokens produced by `tokenize`. -/
inductive Token where
  | literal (s : List Char)
  | param (name : List Char) (ty : PType)
deriving DecidableEq, Repr

/-- `^\{\.\.\.([^}]+)\}`: splat placeholder. -/
def trySplat : List Char → Option (Token × List Char)
  | '{' :: '.' :: '.' :: '.' :: rest =>
    match rest.span (fun c => ¬ c = '}') with
    | (name, '}' :: r) => if name = [] then none else some (.param name .splat, r)
    | _ => none
  | _ => none

/-- `^\{\?([^}]+)\}`: optional placeholder. -/
def tryOptional : List Char → Option (Token × List Char)
  | '{' :: '?' :: rest =>
    match rest.span (fun c => ¬ c = '}') with
    | (name, '}' :: r) => if name = [] then none else some (.param name .optional, r)
    | _ => none
  | _ => none

/-- `^\{([^}]+)\}`: required placeholder. -/
def tryRequired : List Char → Option (Token × List Char)
  | '{' :: rest =>
    match rest.span (fun c => ¬ c = '}') with
    | (name, '}' :: r) => if name = [] then none else some (.param name .required, r)
    | _ => none
  | _ => none

/-- One pass of the TS tokenizer loop, fuelled by the input length (each step
consumes at least one character).  Literal characters are emitted one at a
time; `coalesce` below merges adjacent ones exactly as the TS loop does. -/
def tokenizeFuel : Nat → List Char → List Token
  | 0, _ => []
  | _, [] => []
  | fuel + 1, c :: cs =>
    match trySplat (c :: cs) with
    | some (t, r) => t :: tokenizeFuel fuel r
    | none =>
      match tryOptional (c :: cs) with
      | some (t, r) => t :: tokenizeFuel fuel r
      | none =>
        match tryRequired (c :: cs) with
        | some (t, r) => t :: tokenizeFuel fuel r
        | none => .literal [c] :: tokenizeFuel fuel cs

/-- Merge adjacent literal tokens (the TS loop appends to the previous
literal token instead of pushing a new one). -/
def coalesce : List Token → List Token
  | [] => []
  | .literal a :: rest =>
    match coalesce rest with
    | .literal b :: r => .literal (a ++ b) :: r
    | r => .literal a :: r
  | t :: rest => t :: coalesce rest

/-- `tokenize(pattern)` from `packages/core/src/path-pattern.ts`. -/
def tokenize (pattern : String) : List Token :=
  coalesce (tokenizeFuel pattern.toList.length pattern.toList)

/-! ## The regex fragment emitted by `compilePattern` (core) -/

/-- Elements of the regex string built by `compilePattern`:
`lit s` is an escaped literal run, `reqClass excl` is `([^excl]+)` (greedy),
`optSeg` is `(?:/([^/]+))?`, `splat` is `(.*)` (greedy). -/
inductive RElem where
  | lit (s : List Char)
  | reqClass (excl : List Char)
  | optSeg
  | splat
deriving DecidableEq, Repr

/-- `getStopChars`: the first character of the following literal token,
if any. -/
def stopChar : List Token → Option Char
  | .literal (c :: _) :: _ => some c
  | _ => none

/-- The character class `[^/...]` used for a required parameter: the path
separator, plus the stop character when it exists and is not `/` itself. -/
def reqExcl (rest : List Token) : List Char :=
  match stopChar rest with
  | some c => if c = '/' then ['/'] else ['/', c]
  | none => ['/']

/-- The regex element sequence produced by the `compilePattern` loop.
A literal ending in `/` followed by an optional parameter contributes the
literal without its trailing slash; the slash is folded into `optSeg`. -/
def compileRegex : List Token → List RElem
  | [] => []
  | .literal s :: .param _ .optional :: rest =>
    if s.getLast? = some '/' then
      (if s.dropLast = [] then [] else [RElem.lit s.dropLast])
        ++ RElem.optSeg :: compileRegex rest
    else
      RElem.lit s :: RElem.optSeg :: compileRegex rest
  | .literal s :: rest => RElem.lit s :: compileRegex rest
  | .param _ .required :: rest => RElem.reqClass (reqExcl rest) :: compileRegex rest
  | .param _ .optional :: rest => RElem.optSeg :: compileRegex rest
  | .param _ .splat :: rest => RElem.splat :: compileRegex rest

/-- The ordered parameter list (`params` in `CompiledPattern`). -/
def tokenParams : List Token → List (List Char × PType)
  | [] => []
  | .literal _ :: rest => tokenParams rest
  | .param n ty :: rest => (n, ty) :: tokenParams rest

/-- `[n, n-1, ..., 1]`: candidate lengths for a greedy `+` quantifier,
longest first. -/
def descFrom : Nat → List Nat
  | 0 => []
  | n + 1 => (n + 1) :: descFrom n

/-- `[n, n-1, ..., 0]`: candidate lengths for `(.*)`, longest first. -/
def descFrom0 (n : Nat) : List Nat := descFrom n ++ [0]

/-- First success of `f` over a list of candidates, in order. -/
def firstSome (ks : List Nat) (f : Nat → Option α) : Option α :=
  match ks with
  | [] => none
  | k :: ks' =>
    match f k with
    | some r => some r
    | none => firstSome ks' f

/-- Backtracking matcher for the emitted regex, anchored at both ends
(`^...$`).  Returns the capture list (one entry per capturing group, in
order); an unmatched group is `none`, an empty match is `some []`.  The
search order is exactly the JS engine's: greedy groups try the longest
capture first and backtrack, `(?:/([^/]+))?` tries presence first. -/
def matchElems : List RElem → List Char → Option (List (Option (List Char)))
  | [], cs => if cs.isEmpty then some [] else none
  | .lit s :: es, cs =>
    if s.isPrefixOf cs then matchElems es (cs.drop s.length) else none
  | .reqClass excl :: es, cs =>
    let m := (cs.takeWhile (fun c => ¬ c ∈ excl)).length
    firstSome (descFrom m) fun k =>
      (matchElems es (cs.drop k)).map (fun caps => some (cs.take k) :: caps)
  | .optSeg :: es, cs =>
    let present :=
      match cs with
      | '/' :: cs2 =>
        let m := (cs2.takeWhile (fun c => ¬ c = '/')).length
        firstSome (descFrom m) fun k =>
          (matchElems es (cs2.drop k)).map (fun caps => some (cs2.take k) :: caps)
      | _ => none
    match present with
    | some r => some r
    | none => (matchElems es cs).map (fun caps => none :: caps)
  | .splat :: es, cs =>
    firstSome (descFrom0 cs.length) fun k =>
      (matchElems es (cs.drop k)).map (fun caps => some (cs.take k) :: caps)

/-- The result-building loop of `matchPattern`: a capture that is defined and
non-empty is added under the parameter's name; an undefined or empty capture
of a required parameter aborts with `null`; otherwise the parameter is
omitted from the result. -/
def collectParams :
    List (List Char × PType) → List (Option (List Char)) →
    Option (List (List Char × List Char))
  | [], _ => some []
  | (_, ty) :: ps, [] =>
    if ty = .required then none else collectParams ps []
  | (n, ty) :: ps, cap :: caps =>
    match cap with
    | some v =>
      if v = [] then
        if ty = .required then none else collectParams ps caps
      else
        (collectParams ps caps).map (fun r => (n, v) :: r)
    | none => if ty = .required then none else collectParams ps caps

/-- `matchPattern(compiled, path)` on the token level: run the emitted regex,
then collect the named parameters. -/
def matchPatternTok (ts : List Token) (path : List Char) :
    Option (List (List Char × List Char)) :=
  match matchElems (compileRegex ts) path with
  | none => none
  | some caps => collectParams (tokenParams ts) caps

/-- `buildPath(compiled, params)`: positional substitution.  A literal ending
in `/` followed by an optional parameter emits the slash only when the
parameter has a value; a missing required parameter is an error (`none`). -/
def buildPath : List Token → List (List Char × List Char) → Option (List Char)
  | [], _ => some []
  | .literal s :: .param n .optional :: rest, ps =>
    if s.getLast? = some '/' then
      match ps.lookup n with
      | some v => (buildPath rest ps).map (fun r => s ++ (v ++ r))
      | none => (buildPath rest ps).map (fun r => s.dropLast ++ r)
    else
      match ps.lookup n with
      | some v => (buildPath rest ps).map (fun r => s ++ (v ++ r))
      | none => (buildPath rest ps).map (fun r => s ++ r)
  | .literal s :: rest, ps => (buildPath rest ps).map (fun r => s ++ r)
  | .param n ty :: rest, ps =>
    match ps.lookup n with
    | some v => (buildPath rest ps).map (fun r => v ++ r)
    | none => if ty = .required then none else buildPath rest ps

/-! ## The markdown-resolver pattern compiler
(`compilePattern` in `packages/resolvers/src/markdown.ts`)

Placeholders are `{name}` or `{name:regex}` with `name` matching
`[a-zA-Z_][a-zA-Z0-9_]*` and the inline constraint matching `[^{}]+`.
A placeholder compiles to `(constraint)` or to the lazy default `([^/]+?)`;
everything between placeholders is an escaped literal. -/

/-- Tokens of the markdown pattern grammar. -/
inductive MdTok where
  | lit (s : List Char)
  | ph (name : List Char) (constraint : Option (List Char))
deriving DecidableEq, Repr

/-- `[a-zA-Z_]` (ASCII, as in `PARAM_REGEX`). -/
def isNameStart (c : Char) : Bool := c.isAlpha || c = '_'

/-- `[a-zA-Z0-9_]` (ASCII, as in `PARAM_REGEX`). -/
def isNameChar (c : Char) : Bool := c.isAlphanum || c = '_'

/-- Try to read `\{([a-zA-Z_][a-zA-Z0-9_]*)(?::([^{}]+))?\}` at the head of
the input.  Backtracking inside the name or constraint never helps (a
shorter name still ends on a name character), so maximal munch is exact. -/
def tryPlaceholder : List Char → Option (MdTok × List Char)
  | '{' :: c :: rest =>
    if isNameStart c then
      let (nmRest, after) := rest.span isNameChar
      match after with
      | '}' :: r => some (.ph (c :: nmRest) none, r)
      | ':' :: r2 =>
        let (con, after2) := r2.span (fun d => ¬ d = '{' ∧ ¬ d = '}')
        match after2 with
        | '}' :: r3 => if con = [] then none else some (.ph (c :: nmRest) (some con), r3)
        | _ => none
      | _ => none
    else none
  | _ => none

/-- Scan for placeholder matches left to right (as `regex.exec` in a loop
does); unmatched characters become literal runs. -/
def mdTokenizeFuel : Nat → List Char → List MdTok
  | 0, _ => []
  | _, [] => []
  | fuel + 1, c :: cs =>
    match tryPlaceholder (c :: cs) with
    | some (t, r) => t :: mdTokenizeFuel fuel r
    | none => .lit [c] :: mdTokenizeFuel fuel cs

/-- Merge adjacent literal runs. -/
def coalesceMd : List MdTok → List MdTok
  | [] => []
  | .lit a :: rest =>
    match coalesceMd rest with
    | .lit b :: r => .lit (a ++ b) :: r
    | r => .lit a :: r
  | t :: rest => t :: coalesceMd rest

/-- The token list of a markdown pattern string. -/
def mdTokenize (pattern : String) : List MdTok :=
  coalesceMd (mdTokenizeFuel pattern.toList.length pattern.toList)

/-- The ordered parameter names (`paramNames`). -/
def mdParamNames (ts : List MdTok) : List (List Char) :=
  ts.filterMap fun t => match t with | .ph n _ => some n | .lit _ => none

/-- Single-character regex atoms appearing in inline constraints. -/
inductive MCls where
  | digit
  | word
  | space
  | anyDot
  | oneOf (neg : Bool) (cs : List Char)
deriving DecidableEq, Repr

/-- Quantifiers (with laziness flag). -/
inductive Quant where
  | one
  | plus (lzy : Bool)
  | star (lzy : Bool)
  | opt (lzy : Bool)
deriving DecidableEq, Repr

/-- A quantified atom. -/
structure MItem where
  cls : MCls
  quant : Quant
deriving DecidableEq, Repr

/-- Elements of the regex emitted by the markdown `compilePattern`. -/
inductive MdElem where
  | lit (s : List Char)
  | cap (items : List MItem)
deriving DecidableEq, Repr

/-- Does a character match an atom (JS character-class semantics)? -/
def clsTest : MCls → Char → Bool
  | .digit, c => c.isDigit
  | .word, c => c.isAlphanum || c = '_'
  | .space, c => c = ' ' || c = '\t' || c = '\n' || c = '\r'
  | .anyDot, c => !(c = '\n' || c = '\r')
  | .oneOf neg cs, c => if neg then !(cs.contains c) else cs.contains c

/-- Characters that are regex metacharacters when they stand alone. -/
def isMeta (c : Char) : Bool :=
  c = '+' || c = '*' || c = '?' || c = '(' || c = ')' || c = '|' ||
  c = '^' || c = '$' || c = '{' || c = '}' || c = '[' || c = ']' || c = '\\'

/-- Read one atom from the head of a constraint; `none` when the construct
falls outside the modelled fragment (groups, alternation, ranges, ...). -/
def parseAtom : List Char → Option (MCls × List Char)
  | '\\' :: 'd' :: r => some (.digit, r)
  | '\\' :: 'w' :: r => some (.word, r)
  | '\\' :: 's' :: r => some (.space, r)
  | '\\' :: c :: r => if isNameChar c then none else some (.oneOf false [c], r)
  | '[' :: '^' :: r =>
    match r.span (fun d => ¬ d = ']') with
    | (cls, ']' :: r2) =>
      if cls = [] ∨ cls.contains '-' ∨ cls.contains '\\' then none
      else some (.oneOf true cls, r2)
    | _ => none
  | '[' :: r =>
    match r.span (fun d => ¬ d = ']') with
    | (cls, ']' :: r2) =>
      if cls = [] ∨ cls.contains '-' ∨ cls.contains '\\' then none
      else some (.oneOf false cls, r2)
    | _ => none
  | '.' :: r => some (.anyDot, r)
  | c :: r => if isMeta c then none else some (.oneOf false [c], r)
  | [] => none

/-- Read the quantifier following an atom, if any. -/
def parseQuant : List Char → Quant × List Char
  | '+' :: '?' :: r => (.plus true, r)
  | '+' :: r => (.plus false, r)
  | '*' :: '?' :: r => (.star true, r)
  | '*' :: r => (.star false, r)
  | '?' :: '?' :: r => (.opt true, r)
  | '?' :: r => (.opt false, r)
  | r => (.one, r)

/-- Parse an inline constraint into quantified atoms (fuelled by length;
each atom consumes at least one character). -/
def parseConFuel : Nat → List Char → Option (List MItem)
  | _, [] => some []
  | 0, _ :: _ => none
  | fuel + 1, cs =>
    match parseAtom cs with
    | none => none
    | some (cls, r) =>
      let (q, r2) := parseQuant r
      (parseConFuel fuel r2).map (fun its => ⟨cls, q⟩ :: its)

/-- Parse an inline constraint regex. -/
def parseConstraint (cs : List Char) : Option (List MItem) :=
  parseConFuel cs.length cs

/-- `String.prototype.trim` (whitespace at both ends). -/
def wsTrim (cs : List Char) : List Char :=
  ((cs.dropWhile Char.isWhitespace).reverse.dropWhile Char.isWhitespace).reverse

/-- The lazy default capture `([^/]+?)` for an unconstrained placeholder. -/
def defaultCap : List MItem := [⟨.oneOf true ['/'], .plus true⟩]

/-- The regex element sequence of the markdown `compilePattern`:
`constraint?.trim() || "[^/]+?"` spliced in as the capturing group.
Returns `none` when a constraint uses a regex construct outside the
modelled fragment. -/
def mdCompileElems : List MdTok → Option (List MdElem)
  | [] => some []
  | .lit s :: rest => (mdCompileElems rest).map (fun es => .lit s :: es)
  | .ph _ con :: rest =>
    let itemsO :=
      match con with
      | none => some defaultCap
      | some c =>
        let t := wsTrim c
        if t = [] then some defaultCap else parseConstraint t
    match itemsO with
    | some items => (mdCompileElems rest).map (fun es => .cap items :: es)
    | none => none

/-- `[1, ..., n]`: candidate lengths for a lazy `+`, shortest first. -/
def ascTo (n : Nat) : List Nat := (descFrom n).reverse

/-- Candidate consumption counts for a quantified single-character atom whose
maximal run has length `m`, in the JS engine's preference order. -/
def quantCands : Quant → Nat → List Nat
  | .one, m => if m = 0 then [] else [1]
  | .plus lzy, m => if lzy then ascTo m else descFrom m
  | .star lzy, m => if lzy then 0 :: ascTo m else descFrom0 m
  | .opt lzy, m => if m = 0 then [0] else if lzy then [0, 1] else [1, 0]

/-- Backtracking matcher for a sequence of quantified single-character atoms,
in continuation-passing style.  Because every atom consumes exactly one
character, each quantifier amounts to choosing a consumption count within
the maximal run, in preference order. -/
def mdSeq (its : List MItem) (cs : List Char) (k : List Char → Option α) :
    Option α :=
  match its with
  | [] => k cs
  | it :: its' =>
    let m := (cs.takeWhile (clsTest it.cls)).length
    firstSome (quantCands it.quant m) fun j => mdSeq its' (cs.drop j) k

/-- Backtracking matcher for the markdown regex, anchored at both ends.
Returns one capture per group, in order. -/
def mdMatchElems : List MdElem → List Char → Option (List (List Char))
  | [], cs => if cs.isEmpty then some [] else none
  | .lit s :: es, cs =>
    if s.isPrefixOf cs then mdMatchElems es (cs.drop s.length) else none
  | .cap its :: es, cs =>
    mdSeq its cs fun rest =>
      (mdMatchElems es rest).map (fun caps => cs.take (cs.length - rest.length) :: caps)

/-- `match(path)` of the markdown `compilePattern`: `none` when a constraint
is outside the modelled regex fragment, otherwise the parameter map (every
group always captures, so it is a plain zip with the names). -/
def mdMatchPattern (pattern path : String) :
    Option (Option (List (List Char × List Char))) :=
  (mdCompileElems (mdTokenize pattern)).map fun es =>
    (mdMatchElems es path.toList).map fun caps =>
      (mdParamNames (mdTokenize pattern)).zip caps

/-! ## JavaScript objects

An object is an association list in insertion order.  `setKey` is property
assignment: it replaces the value in place when the key exists (keeping the
original insertion position, as JS does) and appends otherwise. -/

/-- Property assignment `obj[k] = v`. -/
def setKey [DecidableEq κ] : List (κ × β) → κ → β → List (κ × β)
  | [], k, v => [(k, v)]
  | (k', w) :: rest, k, v =>
    if k' = k then (k', v) :: rest else (k', w) :: setKey rest k v

/-- Object spread merge `{ ...a, ...b }`: keys of `a` in order, then new keys
of `b`; on a shared key `b`'s value wins (at `a`'s position). -/
def mergeObj [DecidableEq κ] (a b : List (κ × β)) : List (κ × β) :=
  b.foldl (fun acc p => setKey acc p.1 p.2) a

/-! ## Flattener (`packages/core/src/undot.ts`)

Rows are nested JS values; selection paths are dot-separated strings. -/

/-- A JS value as far as the flattener observes it. -/
inductive JVal where
  | str (s : String)
  | obj (fields : List (List Char × JVal))

/-- `path.split(".")`. -/
def splitDot : List Char → List (List Char)
  | [] => [[]]
  | c :: cs =>
    if c = '.' then [] :: splitDot cs
    else
      match splitDot cs with
      | s :: ss => (c :: s) :: ss
      | [] => [[c]]

/-- `getFieldName`: the final segment (`lastIndexOf(".") + slice`);
`splitDot` never returns `[]`, so the default is never taken. -/
def getFieldName (p : List Char) : List Char :=
  (splitDot p).getLastD []

/-- `getNamespace`: the first segment (`indexOf(".") + slice`). -/
def getNamespace (p : List Char) : List Char :=
  (splitDot p).headI

/-- Association lookup on object fields. -/
def lookupF (fs : List (List Char × JVal)) (k : List Char) : Option JVal :=
  fs.lookup k

/-- `getByPath(obj, path)`: walk the split path; a missing key or a
non-object intermediate yields `undefined` (`none`). -/
def getByPath (root : JVal) (p : List Char) : Option JVal :=
  (splitDot p).foldl
    (fun cur part =>
      match cur with
      | some (.obj fs) => lookupF fs part
      | _ => none)
    (some root)

/-- `path.endsWith(".*")`. -/
def endsDotStar (p : List Char) : Bool :=
  match p.reverse with
  | '*' :: '.' :: _ => true
  | _ => false

/-- `expandWildcards(paths, namespaces)`: a `ns.*` path becomes `ns.<key>`
for every key of the namespace object, in key order; a wildcard over an
absent or non-object namespace expands to nothing. -/
def expandWildcards (paths : List (List Char)) (row : List (List Char × JVal)) :
    List (List Char) :=
  paths.flatMap fun p =>
    if endsDotStar p then
      match lookupF row (getNamespace p) with
      | some (.obj fs) => fs.map (fun f => getNamespace p ++ '.' :: f.1)
      | _ => []
    else [p]

/-- `undot(namespacedResult, selectPaths)`: expand wildcards, then assign
`result[finalSegment] = getByPath(...)` for each expanded path in order.
An entry holds `none` when the path resolved to `undefined`. -/
def undot (row : List (List Char × JVal)) (selectPaths : List (List Char)) :
    List (List Char × Option JVal) :=
  (expandWildcards selectPaths row).foldl
    (fun acc p => setKey acc (getFieldName p) (getByPath (.obj row) p))
    []

/-- `undotWithAliases(namespacedResult, aliases)`: result keyed by alias; a
wildcard path under an alias degrades to one entry per expanded field keyed
by the field's own name. -/
def undotWithAliases (row : List (List Char × JVal))
    (aliases : List (List Char × List Char)) : List (List Char × Option JVal) :=
  aliases.foldl
    (fun acc al =>
      if endsDotStar al.2 then
        (expandWildcards [al.2] row).foldl
          (fun acc2 ep => setKey acc2 (getFieldName ep) (getByPath (.obj row) ep))
          acc
      else
        setKey acc al.1 (getByPath (.obj row) al.2))
    []

/-! ## The piqit query builder (`packages/piqit/src/query.ts`)

Constraint maps are JS objects.  `scan` and `filter` assign
`{ ...previous, ...constraints }`; an unset map is `undefined`
(spreading `undefined` contributes nothing). -/

/-- Builder state of the piqit `QueryBuilder` (constraints only; `K`/`V` are
the scan- and filter-key and value types). -/
structure PiqitBuilder (K V : Type) [DecidableEq K] where
  scanC : Option (List (K × V))
  filterC : Option (List (K × V))

/-- `from(resolver)`: fresh builder, nothing set. -/
def piqitFrom (K V : Type) [DecidableEq K] : PiqitBuilder K V :=
  ⟨none, none⟩

/-- `scan(constraints)`: `this._scanConstraints = { ...this._scanConstraints,
...constraints }`. -/
def PiqitBuilder.scan [DecidableEq K] (b : PiqitBuilder K V) (c : List (K × V)) :
    PiqitBuilder K V :=
  { b with scanC := some (mergeObj (b.scanC.getD []) c) }

/-- `filter(constraints)`: same merge-in on the filter map. -/
def PiqitBuilder.filter [DecidableEq K] (b : PiqitBuilder K V) (c : List (K × V)) :
    PiqitBuilder K V :=
  { b with filterC := some (mergeObj (b.filterC.getD []) c) }

/-! ## The core query builder (`packages/core/src/query.ts`) -/

/-- Builder state of the core `QueryBuilder` (constraints only). -/
structure CoreBuilder (S F : Type) where
  searchC : Option S
  filterC : Option F

/-- Fresh core builder. -/
def coreFrom (S F : Type) : CoreBuilder S F := ⟨none, none⟩

/-- `search(constraints)`: `this.searchConstraints = constraints` — the
previous map is replaced wholesale, not merged. -/
def CoreBuilder.search (b : CoreBuilder S F) (c : S) : CoreBuilder S F :=
  { b with searchC := some c }

/-- `filter(constraints)`: `this.filterConstraints = constraints` — likewise
a wholesale replacement. -/
def CoreBuilder.filter (b : CoreBuilder S F) (c : F) : CoreBuilder S F :=
  { b with filterC := some c }

/-!
### `exec()` ordering (`executeFilter` / `resolveSelected`)

`executeFilter` awaits the meta resolution of every path inside
`Promise.all(paths.map(async ...))` and pushes each surviving path into
`filtered` *as its resolution completes*.  The completion order is a
scheduler-chosen permutation of the issue order; we model it as an explicit
list `sched` of indices (the order in which the per-path awaits resume).
`resolveSelected` then maps the filtered list through `Promise.all`, which
reassembles by index, so the final row order is the filtered order. -/

/-- `executeFilter(paths)` under completion schedule `sched` (a permutation
of `[0, ..., paths.length)`): each completing path is kept when its meta
matches every filter key.  With no filter constraints the paths pass through
unchanged. -/
def executeFilter (hasFilter : Bool) (pred : P → Bool) (paths : List P)
    (sched : List Nat) : List P :=
  if hasFilter then
    sched.filterMap fun i => (paths.get? i).bind fun p =>
      if pred p then some p else none
  else paths

/-- `exec()` as far as row order is observable: rows are produced from the
filtered paths by an index-preserving `Promise.all` map. -/
def execRows (hasFilter : Bool) (pred : P → Bool) (rowOf : P → R)
    (paths : List P) (sched : List Nat) : List R :=
  (executeFilter hasFilter pred paths sched).map rowOf

/-!
### `single()` (`SingleQueryBuilderImpl.exec` in core,
`SingleQueryBuilder` in piqit) -/

/-- The two error outcomes of the strict `single()` variant. -/
inductive SingleError where
  | empty
  | multiple (n : Nat)
deriving DecidableEq, Repr

/-- Strict variant (`SingleQueryBuilderImpl.exec` in core): throws on zero
results and on more than one, else returns the unique row. -/
def singleStrictExec (results : List R) : Except SingleError R :=
  if results.length = 0 then .error .empty
  else if results.length > 1 then .error (.multiple results.length)
  else
    match results with
    | r :: _ => .ok r
    | [] => .error .empty

/-- Soft variant (`SingleQueryBuilder.exec` in piqit): `results[0]` —
`undefined` on an empty result, the first row otherwise, never an error. -/
def singleSoftExec (results : List R) : Option R :=
  results.head?

/-!
### Streaming (`QueryBuilder.stream`)

The core `stream()` is an async generator over the lazy scanner: each pull
acquires a semaphore slot, resolves the filter meta for one enumerated item,
skips it on mismatch, otherwise resolves the selected facets and yields.
The `for await` loop is sequential, so consuming exactly one row processes
enumerated items one at a time until the first item passing the filter, and
no further item is pulled once the consumer stops.

The piqit `stream()` instead awaits `this.exec()` — which resolves every
enumerated item — and only then yields rows one at a time. -/

/-- Consuming exactly one row from the core `stream()`: returns the items
for which any facet resolution was performed (in pull order) and the yielded
item, if any.  With filter constraints each pulled item costs one Meta
resolution; without them the first pulled item is resolved and yielded. -/
def coreStreamTake1 (hasFilter : Bool) (pred : P → Bool) :
    List P → List P × Option P
  | [] => ([], none)
  | p :: ps =>
    if hasFilter then
      if pred p then ([p], some p)
      else
        let r := coreStreamTake1 hasFilter pred ps
        (p :: r.1, r.2)
    else ([p], some p)

/-- Consuming exactly one row from the piqit `stream()`: `exec()` runs
first, resolving every enumerated item, then the first row is yielded. -/
def piqitStreamTake1 (items : List P) : List P × Option P :=
  (items, items.head?)

/-! ## Frontmatter resolvers

`frontmatterResolver` (the resolvers package's `MetaResolver`) and the
standalone `parseFrontmatterStrict` helper
(`packages/resolvers/src/frontmatter.ts`).  File I/O is abstracted away:
both are modelled on the content string the TS code reads (for the resolver,
the first `maxBytes` bytes of the file).  The YAML parser is an external
package (`yaml` / `parseSimpleYaml`); it is passed in as a parameter since
no claim depends on its output. -/

/-- Does `needle` occur at some position `≥ start` in `hay`?  If so, return
the first such index (`String.indexOf(needle, start)`). -/
def indexOfFrom (needle hay : List Char) (start : Nat) : Option Nat :=
  let rec go : Nat → List Char → Option Nat
    | _, [] => if needle.isPrefixOf ([] : List Char) then some 0 else none
    | i, c :: cs =>
      if needle.isPrefixOf (c :: cs) then some i
      else (go (i + 1) cs).map id
  (go 0 (hay.drop start)).map (fun i => i + start)

/-- `extractFrontmatter(content)` of `frontmatterResolver`: requires a
leading `---`, then looks for `\n---` (falling back to `\r\n---`) from
index 3; the YAML text between is handed to the external parser.  An opening
fence that is never closed yields `null`, exactly like no fence at all. -/
def extractFrontmatter (parseYaml : List Char → List (List Char × JVal))
    (content : List Char) : Option (List (List Char × JVal)) :=
  if ("---".toList).isPrefixOf content then
    match indexOfFrom "\n---".toList content 3 with
    | some endIndex => some (parseYaml ((content.take endIndex).drop 4))
    | none =>
      match indexOfFrom "\r\n---".toList content 3 with
      | some endIndexCrlf => some (parseYaml ((content.take endIndexCrlf).drop 4))
      | none => none
  else none

/-- `frontmatterResolver(...).resolve(path, fields)` on the first-`maxBytes`
buffer of the file: `{}` when no frontmatter was extracted, else the full
parse or the requested fields (those present) in request order. -/
def frontmatterResolve (parseYaml : List Char → List (List Char × JVal))
    (buffer : List Char) (fields : Option (List (List Char))) :
    List (List Char × JVal) :=
  match extractFrontmatter parseYaml buffer with
  | none => []
  | some fm =>
    match fields with
    | some fs =>
      if fs.length > 0 then
        fs.foldl
          (fun acc f =>
            match fm.lookup f with
            | some v => acc ++ [(f, v)]
            | none => acc)
          []
      else fm
    | none => fm

/-- The error of `parseFrontmatterStrict`. -/
inductive FrontmatterParseError where
  | notClosed
  | fenceAfterContent
deriving DecidableEq, Repr

/-- Is `---\n` or `---\r\n` at position `i` of `content`? -/
def fenceAt (content : List Char) (i : Nat) : Bool :=
  ("---\n".toList).isPrefixOf (content.drop i) ||
  ("---\r\n".toList).isPrefixOf (content.drop i)

/-- `FRONTMATTER_FENCE_ANYWHERE_REGEX`: `(^|\r?\n)---\r?\n` — a fence at the
start or right after a newline. -/
def fenceAnywhere (content : List Char) : Bool :=
  (List.range (content.length + 1)).any fun i =>
    (i = 0 && fenceAt content 0) ||
    (decide (0 < i) && decide (content.get? (i - 1) = some '\n') && fenceAt content i)

/-- The opening fence `^---\r?\n`: its length when present. -/
def openFence (content : List Char) : Option Nat :=
  if ("---\n".toList).isPrefixOf content then some 4
  else if ("---\r\n".toList).isPrefixOf content then some 5
  else none

/-- The lazy body of `FRONTMATTER_REGEX` (`^---\r?\n([\s\S]*?)\r?\n---`):
the shortest body after the opening fence that is followed by `\r\n---` or
`\n---`.  Returns the body when the regex matches. -/
def closeFenceBody (content : List Char) : Option (List Char) :=
  match openFence content with
  | none => none
  | some o =>
    let rest := content.drop o
    let cands := (List.range (rest.length + 1)).filter fun i =>
      ("\n---".toList).isPrefixOf (rest.drop i) ||
      ("\r\n---".toList).isPrefixOf (rest.drop i)
    (cands.head?).map fun i => rest.take i

/-- `parseFrontmatterStrict(content)`: `none` when no frontmatter is
present, `FrontmatterParseError` when a fence is malformed, otherwise the
parsed block — "absent" and "corrupt" are distinct outcomes here. -/
def parseFrontmatterStrict (parseSimpleYaml : List Char → List (List Char × JVal))
    (content : List Char) :
    Except FrontmatterParseError (Option (List (List Char × JVal))) :=
  if (openFence content).isSome then
    match closeFenceBody content with
    | none => .error .notClosed
    | some body => .ok (some (parseSimpleYaml body))
  else if fenceAnywhere content then .error .fenceAfterContent
  else .ok none

/-! ## Slash-delimited patterns

The build/match round trip does not hold for arbitrary patterns (adjacent
parameters and in-value delimiter characters break it); the predicates below
carve out the class of patterns and parameter maps for which it does.
`goodTokens` demands that parameters are separated by literal text: a
required parameter is followed by a literal (or ends the pattern), an
optional parameter sits between a `/`-terminated literal and a
`/`-initial literal (or the end), and a splat parameter is final. -/

/-- What may follow an optional parameter: nothing, or a literal starting
with `/`. -/
def optFollowOk : List Token → Bool
  | [] => true
  | .literal (c :: _) :: _ => c = '/'
  | _ => false

/-- What may follow a required parameter: nothing, or a non-empty literal
(whose first character becomes the stop character). -/
def reqFollowOk : List Token → Bool
  | [] => true
  | .literal (_ :: _) :: _ => true
  | _ => false

/-- Slash-delimited pattern shape (see section comment). -/
def goodTokens : List Token → Bool
  | [] => true
  | .literal s :: .param _ .optional :: rest =>
    decide (s.getLast? = some '/') && optFollowOk rest && goodTokens rest
  | .literal s :: rest => decide (¬ s = []) && goodTokens rest
  | .param _ .required :: rest => reqFollowOk rest && goodTokens rest
  | .param _ .optional :: _ => false
  | .param _ .splat :: rest => rest.isEmpty

/-- Value discipline for one parameter: non-empty, free of `/`, and (for a
required parameter) free of its stop character; a splat value need only be
non-empty. -/
def valOk : PType → List Char → List Token → Bool
  | .required, v, rest => decide (¬ v = []) && v.all (fun c => decide (¬ c ∈ reqExcl rest))
  | .optional, v, _ => decide (¬ v = []) && v.all (fun c => decide (¬ c = '/'))
  | .splat, v, _ => decide (¬ v = [])

/-- Every parameter of the pattern has a value in `ps` satisfying its value
discipline. -/
def fitsAt (ps : List (List Char × List Char)) : List Token → Bool
  | [] => true
  | .literal _ :: rest => fitsAt ps rest
  | .param n ty :: rest =>
    match ps.lookup n with
    | some v => valOk ty v rest && fitsAt ps rest
    | none => false

/-- The capture list the emitted regex should produce on the built path:
one capture per parameter, in order, holding its value. -/
def capsOf (ts : List Token) (ps : List (List Char × List Char)) :
    List (Option (List Char)) :=
  (tokenParams ts).map fun q => ps.lookup q.1

/-- The parameter names of a pattern, in order. -/
def pnames (ts : List Token) : List (List Char) :=
  (tokenParams ts).map Prod.fst

/-! # Theorems -/

/-! ## C9: constrained parameters (markdown `compilePattern`) -/

/-- C9: compiling `TASK-{num:\d+}-{slug}.md` yields a matcher that maps
`TASK-003-fix-bug.md` to exactly `{num: "003", slug: "fix-bug"}` and rejects
`TASK-abc-fix-bug.md` (the `\d+` constraint refuses the non-digit capture). -/
theorem c9_constrained_param_match :
    mdMatchPattern "TASK-\x7bnum:\\d+\x7d-\x7bslug\x7d.md" "TASK-003-fix-bug.md" =
      some (some [("num".toList, "003".toList), ("slug".toList, "fix-bug".toList)]) ∧
    mdMatchPattern "TASK-\x7bnum:\\d+\x7d-\x7bslug\x7d.md" "TASK-abc-fix-bug.md" = some none := by
  exact ⟨by decide, by decide⟩

/-! ## C3: adjacent unconstrained parameters -/

/-- C3 counterexample: the claim says compiling a pattern with two adjacent
unconstrained parameters must fail with `AmbiguousPatternError`; instead the
core `compilePattern` succeeds and its best-effort matcher happily matches
`xy` against `{a}{b}`. -/
theorem c3_counterexample_adjacent_compiles :
    matchPatternTok (tokenize "{a}{b}") "xy".toList =
      some [("a".toList, "x".toList), ("b".toList, "y".toList)] := by decide

/-- C3 (amended): neither pattern compiler rejects two adjacent
unconstrained parameters; both produce best-effort matchers (the core one
splits greedily, the markdown one lazily, as the split of `xyz` shows). -/
theorem c3_adjacent_params_best_effort :
    matchPatternTok (tokenize "{a}{b}") "xyz".toList =
      some [("a".toList, "xy".toList), ("b".toList, "z".toList)] ∧
    mdMatchPattern "{a}{b}" "xyz" =
      some (some [("a".toList, "x".toList), ("b".toList, "yz".toList)]) := by
  exact ⟨by decide, by decide⟩

/-! ## C2: selection collisions in the flattener -/

/-- C2 counterexample: the claim says a bare-path selection whose expansion
has two paths with the same final segment must be rejected at runtime with
`SelectionCollisionError`; instead `undot` silently keeps the later path's
value (`meta.title` wins over `params.title`). -/
theorem c2_counterexample_collision_not_rejected :
    undot
      [("params".toList, .obj [("title".toList, .str "a")]),
       ("meta".toList, .obj [("title".toList, .str "b")])]
      ["params.title".toList, "meta.title".toList] =
      [("title".toList, some (.str "b"))] := by rfl

/-- C2 (amended): at runtime a final-segment collision is not rejected —
`undot` keeps the later path's value (for any two values) — while a
selection given as an alias map with distinct aliases over the same final
segment succeeds with one entry per alias.  (Collision rejection exists only
as the compile-time `HasCollision` type check.) -/
theorem c2_collision_last_wins_alias_ok (v1 v2 : JVal) :
    undot
      [("params".toList, .obj [("title".toList, v1)]),
       ("meta".toList, .obj [("title".toList, v2)])]
      ["params.title".toList, "meta.title".toList] =
      [("title".toList, some v2)] ∧
    undotWithAliases
      [("params".toList, .obj [("title".toList, v1)]),
       ("meta".toList, .obj [("title".toList, v2)])]
      [("a".toList, "params.title".toList), ("b".toList, "meta.title".toList)] =
      [("a".toList, some v1), ("b".toList, some v2)] := by
  exact ⟨rfl, rfl⟩

/-! ## C8: absent versus corrupt frontmatter -/

/-- C8 counterexample: the claim says `MetaResolver.resolve` fails with
`MalformedFacetError` on a facet block that is opened but never closed;
instead `frontmatterResolver`'s `resolve` returns `{}` for the unclosed
block `---\ntitle: x\n` — the same result as for content with no block at
all, so the two cases are not distinguishable through the resolver. -/
theorem c8_counterexample_unclosed_yields_empty :
    frontmatterResolve (fun _ => []) "---\ntitle: x\n".toList none = [] ∧
    frontmatterResolve (fun _ => []) "no frontmatter".toList none = [] := by
  exact ⟨rfl, rfl⟩

/-! ## Helper lemmas about JS object assignment -/

section MergeLemmas

variable {κ β : Type} [DecidableEq κ]

theorem mergeObj_nil (m : List (κ × β)) : mergeObj m [] = m := rfl

theorem mergeObj_cons (m : List (κ × β)) (p : κ × β) (rest : List (κ × β)) :
    mergeObj m (p :: rest) = mergeObj (setKey m p.1 p.2) rest := rfl

theorem setKey_same (m : List (κ × β)) (k : κ) (v w : β) :
    setKey (setKey m k w) k v = setKey m k v := by
  induction m with
  | nil => simp [setKey]
  | cons p rest ih =>
    by_cases h : p.1 = k
    · simp [setKey, h]
    · simp [setKey, h, ih]

theorem keys_setKey (m : List (κ × β)) (k : κ) (v : β) :
    (setKey m k v).map Prod.fst =
      if k ∈ m.map Prod.fst then m.map Prod.fst else m.map Prod.fst ++ [k] := by
  induction m with
  | nil => simp [setKey]
  | cons p rest ih =>
    by_cases h : p.1 = k
    · simp [setKey, h]
    · by_cases hm : k ∈ rest.map Prod.fst <;>
        simp [setKey, h, ih, hm, Ne.symm h]

theorem nodup_keys_setKey (m : List (κ × β)) (k : κ) (v : β)
    (h : (m.map Prod.fst).Nodup) : ((setKey m k v).map Prod.fst).Nodup := by
  rw [keys_setKey]
  by_cases hm : k ∈ m.map Prod.fst <;>
    simp [hm, h, List.nodup_append, List.disjoint_singleton]

/-- Assigning key `k` always produces a map of the shape
`pre ++ (k, x) :: suf` with `pre`/`suf` independent of the value. -/
theorem setKey_shape (m : List (κ × β)) (k : κ) :
    ∃ pre suf, k ∉ pre.map Prod.fst ∧
      ∀ x : β, setKey m k x = pre ++ (k, x) :: suf := by
  induction m with
  | nil => exact ⟨[], [], by simp, fun x => by simp [setKey]⟩
  | cons p rest ih =>
    by_cases h : p.1 = k
    · exact ⟨[], rest, by simp, fun x => by simp [setKey, h]⟩
    · obtain ⟨pre, suf, hpre, hx⟩ := ih
      exact ⟨p :: pre, suf, by simp [hpre, Ne.symm h],
        fun x => by simp [setKey, h, hx x]⟩

theorem setKey_append_notmem (pre suf : List (κ × β)) (k : κ) (x y : β)
    (h : k ∉ pre.map Prod.fst) :
    setKey (pre ++ (k, x) :: suf) k y = pre ++ (k, y) :: suf := by
  induction pre with
  | nil => simp [setKey]
  | cons p pre' ih =>
    simp only [List.map_cons, List.mem_cons, not_or] at h
    simp [setKey, Ne.symm h.1, ih h.2]

theorem setKey_middle (pre suf : List (κ × β)) (k q : κ) (x : β) (y : β)
    (h : ¬ q = k) :
    setKey (pre ++ (k, x) :: suf) q y =
      if q ∈ pre.map Prod.fst then setKey pre q y ++ (k, x) :: suf
      else pre ++ (k, x) :: setKey suf q y := by
  induction pre with
  | nil => simp [setKey, Ne.symm h]
  | cons p pre' ih =>
    by_cases hp : p.1 = q
    · simp [setKey, hp]
    · by_cases hm : q ∈ pre'.map Prod.fst <;>
        simp [setKey, hp, ih, hm, Ne.symm hp]

/-- Merging entries whose keys avoid `k` transforms `pre ++ (k, x) :: suf`
uniformly in `x`. -/
theorem mergeObj_shape (a : List (κ × β)) (k : κ) :
    ∀ pre suf : List (κ × β), k ∉ a.map Prod.fst → k ∉ pre.map Prod.fst →
      ∃ pre' suf', k ∉ pre'.map Prod.fst ∧
        ∀ x : β, mergeObj (pre ++ (k, x) :: suf) a = pre' ++ (k, x) :: suf' := by
  induction a with
  | nil => exact fun pre suf _ hpre => ⟨pre, suf, hpre, fun _ => rfl⟩
  | cons q a' ih =>
    intro pre suf hk hpre
    simp only [List.map_cons, List.mem_cons, not_or] at hk
    by_cases hq : q.1 ∈ pre.map Prod.fst
    · obtain ⟨pre', suf', hpre', hx⟩ := ih (setKey pre q.1 q.2) suf hk.2 (by
        rw [keys_setKey]; simp [hq, hpre])
      refine ⟨pre', suf', hpre', fun x => ?_⟩
      rw [mergeObj_cons, setKey_middle pre suf k q.1 x q.2 (Ne.symm hk.1),
        if_pos hq, hx x]
    · obtain ⟨pre', suf', hpre', hx⟩ := ih pre (setKey suf q.1 q.2) hk.2 hpre
      refine ⟨pre', suf', hpre', fun x => ?_⟩
      rw [mergeObj_cons, setKey_middle pre suf k q.1 x q.2 (Ne.symm hk.1),
        if_neg hq, hx x]

/-- The last assignment to `k` wins: the value written before a merge whose
keys avoid `k` may be replaced by assigning `k` after the merge. -/
theorem mergeObj_last_wins (a : List (κ × β)) (m : List (κ × β)) (k : κ)
    (v w : β) (hk : k ∉ a.map Prod.fst) :
    mergeObj (setKey m k v) a = setKey (mergeObj (setKey m k w) a) k v := by
  obtain ⟨pre, suf, hpre, hshape⟩ := setKey_shape m k
  obtain ⟨pre', suf', hpre', hx⟩ := mergeObj_shape a k pre suf hk hpre
  rw [hshape v, hshape w, hx v, hx w, setKey_append_notmem _ _ _ _ _ hpre']

/-- Merging `setKey a k v` equals merging `a` and then assigning `k`
(provided `a`'s keys are duplicate-free). -/
theorem mergeObj_setKey (a : List (κ × β)) (m : List (κ × β)) (k : κ) (v : β)
    (ha : (a.map Prod.fst).Nodup) :
    mergeObj m (setKey a k v) = setKey (mergeObj m a) k v := by
  induction a generalizing m with
  | nil => simp [mergeObj, setKey]
  | cons q a' ih =>
    simp only [List.map_cons, List.nodup_cons] at ha
    by_cases h : q.1 = k
    · have h1 : setKey (q :: a') k v = (fun p : κ × β => (p.1, v)) q :: a' := by
        simp [setKey, h]
      rw [h1, mergeObj_cons, mergeObj_cons]
      show mergeObj (setKey m q.1 v) a' = setKey (mergeObj (setKey m q.1 q.2) a') k v
      rw [← h]
      exact mergeObj_last_wins a' m q.1 v q.2 ha.1
    · have h1 : setKey (q :: a') k v = q :: setKey a' k v := by
        simp [setKey, h]
      rw [h1, mergeObj_cons, mergeObj_cons]
      exact ih (setKey m q.1 q.2) ha.2

/-- Associativity of JS spread merge (`{...{...m, ...a}, ...c}` equals
`{...m, ...{...a, ...c}}`) when `a` has duplicate-free keys. -/
theorem mergeObj_assoc (m a c : List (κ × β)) (ha : (a.map Prod.fst).Nodup) :
    mergeObj (mergeObj m a) c = mergeObj m (mergeObj a c) := by
  induction c generalizing a with
  | nil => rfl
  | cons p c' ih =>
    rw [mergeObj_cons, mergeObj_cons, ← mergeObj_setKey a m p.1 p.2 ha]
    exact ih (setKey a p.1 p.2) (nodup_keys_setKey a p.1 p.2 ha)

end MergeLemmas

/-- C8 (amended): `frontmatterResolver.resolve` returns an empty object both
when no facet block is present and when the block is opened but never
closed (whatever the YAML parser does); the absent/corrupt distinction
exists only in the standalone `parseFrontmatterStrict` helper, which returns
`none` for absent content, `FrontmatterParseError` for an unclosed fence,
and the parsed block for a well-formed one — and which no resolver calls. -/
theorem c8_resolver_conflates_absent_and_corrupt
    (py : List Char → List (List Char × JVal)) :
    frontmatterResolve py "---\ntitle: x\n".toList none = [] ∧
    frontmatterResolve py "no frontmatter".toList none = [] ∧
    parseFrontmatterStrict py "---\ntitle: x\n".toList = .error .notClosed ∧
    parseFrontmatterStrict py "no frontmatter".toList = .ok none ∧
    parseFrontmatterStrict py "---\nt: 1\n---\nbody".toList =
      .ok (some (py "t: 1".toList)) := by
  refine ⟨rfl, rfl, ?_, ?_, ?_⟩ <;> rfl

/-! ## C5: constraint accumulation -/

/-- C5 counterexample: on the core `QueryBuilder`, `search(a).search(b)` is
not `search({...a, ...b})` — the second call replaces the first map
wholesale, dropping `year`. -/
theorem c5_counterexample_core_search_replaces :
    (((coreFrom (List (String × String)) Unit).search
        [("year", "2023")]).search [("status", "pub")]).searchC =
      some [("status", "pub")] ∧
    ¬ (some [("status", "pub")] =
        some (mergeObj [("year", "2023")] [("status", "pub")])) := by
  exact ⟨rfl, by decide⟩

/-- C5 (amended): the merge law `scan(a).scan(b) ≡ scan({...a, ...b})` (and
likewise for `filter`) holds for the piqit `QueryBuilder`, whose calls merge
with later-key-wins; the core `QueryBuilder`'s `search` and `filter` instead
replace the previous constraints wholesale, so there the second call alone
wins. -/
theorem c5_piqit_merges_core_replaces {K V S F : Type} [DecidableEq K]
    (b : PiqitBuilder K V) (a c : List (K × V))
    (ha : (a.map Prod.fst).Nodup)
    (b' : CoreBuilder S F) (s1 s2 : S) (f1 f2 : F) :
    (b.scan a).scan c = b.scan (mergeObj a c) ∧
    (b.filter a).filter c = b.filter (mergeObj a c) ∧
    ((b'.search s1).search s2).searchC = some s2 ∧
    ((b'.filter f1).filter f2).filterC = some f2 := by
  refine ⟨?_, ?_, rfl, rfl⟩
  · show PiqitBuilder.mk
      (some (mergeObj (mergeObj (b.scanC.getD []) a) c)) b.filterC =
      PiqitBuilder.mk (some (mergeObj (b.scanC.getD []) (mergeObj a c))) b.filterC
    rw [mergeObj_assoc _ _ _ ha]
  · show PiqitBuilder.mk b.scanC
      (some (mergeObj (mergeObj (b.filterC.getD []) a) c)) =
      PiqitBuilder.mk b.scanC (some (mergeObj (b.filterC.getD []) (mergeObj a c)))
    rw [mergeObj_assoc _ _ _ ha]

/-- C5 witness: the merge law at concrete constraint maps (`year` is kept,
`status` added, and a repeated `year` key is overwritten by the later call). -/
theorem c5_witness :
    ((piqitFrom String String).scan [("year", "2023")]).scan
        [("year", "2024"), ("status", "pub")] =
      (piqitFrom String String).scan
        (mergeObj [("year", "2023")] [("year", "2024"), ("status", "pub")]) ∧
    ((piqitFrom String String).filter [("year", "2023")]).filter
        [("year", "2024"), ("status", "pub")] =
      (piqitFrom String String).filter
        (mergeObj [("year", "2023")] [("year", "2024"), ("status", "pub")]) ∧
    (((coreFrom String Unit).search "a").search "b").searchC = some "b" ∧
    (((coreFrom Unit String).filter "x").filter "y").filterC = some "y" :=
  c5_piqit_merges_core_replaces (piqitFrom String String)
    [("year", "2023")] [("year", "2024"), ("status", "pub")] (by decide)
    ⟨(coreFrom String Unit).searchC, (coreFrom Unit String).filterC⟩ "a" "b" "x" "y"

/-! ## C6: result order of `exec()` -/

/-- Picking by index over `range` is plain filtering. -/
theorem filterMap_range_filter {α : Type} (l : List α) (p : α → Bool) :
    (List.range l.length).filterMap
      (fun i => (l.get? i).bind fun a => if p a then some a else none) =
      l.filter p := by
  induction l with
  | nil => simp
  | cons a l ih =>
    have hcomp :
        ((fun i => ((a :: l).get? i).bind fun x => if p x then some x else none)
            ∘ Nat.succ) =
          fun i => (l.get? i).bind fun x => if p x then some x else none := by
      funext i
      rfl
    rw [List.length_cons, List.range_succ_eq_map, List.filterMap_cons,
      List.filterMap_map, hcomp]
    simp only [List.get?_eq_getElem?] at ih
    by_cases hp : p a <;> simp [hp, ih, List.filter_cons]

/-- C6 counterexample: under the completion schedule in which the second
path's meta resolution finishes first (legal for any asynchronous
`MetaResolver`), `exec()` with a filter returns the rows in completion
order `[p2, p1]`, not enumeration order `[p1, p2]`. -/
theorem c6_counterexample_completion_order :
    execRows true (fun _ => true) id ["p1", "p2"] [1, 0] = ["p2", "p1"] ∧
    ¬ (["p2", "p1"] = ["p1", "p2"]) := by
  exact ⟨rfl, by decide⟩

/-- C6 (amended): with filter constraints, `exec()` returns rows in the
completion order of the per-item meta resolutions (`executeFilter` pushes
each path as its check completes); enumeration order is recovered exactly
when resolutions complete in issue order, and without filter constraints
the enumeration order is always preserved. -/
theorem c6_rows_in_completion_order {P R : Type} (paths : List P)
    (pred : P → Bool) (rowOf : P → R) (sched : List Nat) :
    execRows true pred rowOf paths (List.range paths.length) =
      (paths.filter pred).map rowOf ∧
    execRows false pred rowOf paths sched = paths.map rowOf := by
  constructor
  · show ((List.range paths.length).filterMap _).map rowOf = _
    rw [filterMap_range_filter]
  · rfl

/-! ## C7: the two `single()` variants -/

/-- C7: the strict variant (core `SingleQueryBuilderImpl.exec`) errors with
the empty-result error on zero rows and the multiple-result error on more
than one row, returning the row only when it is unique; the soft variant
(piqit `SingleQueryBuilder.exec`) returns the first row, `none` on zero
rows, and never errors on extra rows. -/
theorem c7_single_variants {R : Type} (r : R) (rs : List R) :
    singleStrictExec ([] : List R) = .error .empty ∧
    singleStrictExec [r] = .ok r ∧
    (rs.length > 1 → singleStrictExec rs = .error (.multiple rs.length)) ∧
    singleSoftExec ([] : List R) = none ∧
    singleSoftExec (r :: rs) = some r := by
  refine ⟨rfl, rfl, ?_, rfl, rfl⟩
  intro h
  have h0 : ¬ rs.length = 0 := by omega
  simp [singleStrictExec, h0, h]

/-- C7 witness: both variants at concrete result lists. -/
theorem c7_witness :
    singleStrictExec ([] : List String) = .error .empty ∧
    singleStrictExec ["r"] = .ok "r" ∧
    singleStrictExec ["r", "s"] = .error (.multiple 2) ∧
    singleSoftExec ([] : List String) = none ∧
    singleSoftExec ["r", "s"] = some "r" := by
  have h := c7_single_variants "r" ["s"]
  have h2 := c7_single_variants "r" ["r", "s"]
  exact ⟨h.1, h.2.1, h2.2.2.1 (by decide), h.2.2.2.1, h.2.2.2.2⟩

/-! ## C10: empty captures are omitted, not bound -/

/-- `collectParams` never binds a name to the empty string. -/
theorem collectParams_values_nonempty :
    ∀ (tp : List (List Char × PType)) (caps : List (Option (List Char)))
      (r : List (List Char × List Char)),
      collectParams tp caps = some r → ∀ q ∈ r, ¬ q.2 = [] := by
  intro tp
  induction tp with
  | nil =>
    intro caps r h q hq
    simp only [collectParams, Option.some.injEq] at h
    subst h
    simp at hq
  | cons p ps ih =>
    obtain ⟨n, ty⟩ := p
    intro caps r h q hq
    match caps with
    | [] =>
      simp only [collectParams] at h
      split at h
      · cases h
      · exact ih [] r h q hq
    | none :: caps' =>
      simp only [collectParams] at h
      split at h
      · cases h
      · exact ih caps' r h q hq
    | some v :: caps' =>
      simp only [collectParams] at h
      by_cases hv : v = []
      · rw [if_pos hv] at h
        split at h
        · cases h
        · exact ih caps' r h q hq
      · rw [if_neg hv] at h
        cases hcp : collectParams ps caps' with
        | none => rw [hcp] at h; cases h
        | some r' =>
          rw [hcp] at h
          replace h : some ((n, v) :: r') = some r := h
          injection h with h
          subst h
          rcases List.mem_cons.mp hq with h1 | h1
          · rw [h1]
            exact hv
          · exact ih caps' r' hcp q h1

/-- C10: when the compiled regex matches with the splat (or an optional)
parameter capturing the empty string, `matchPattern` omits that parameter's
key entirely rather than binding it to `""`: concretely,
`content/{...rest}` matches `content/` with an empty result map, and in
general no binding in any match result carries the empty string. -/
theorem c10_empty_captures_omitted :
    matchPatternTok (tokenize "content/{...rest}") "content/".toList = some [] ∧
    ∀ (ts : List Token) (path : List Char) (r : List (List Char × List Char)),
      matchPatternTok ts path = some r → ∀ q ∈ r, ¬ q.2 = [] := by
  refine ⟨by decide, ?_⟩
  intro ts path r h q hq
  unfold matchPatternTok at h
  cases hm : matchElems (compileRegex ts) path with
  | none => rw [hm] at h; cases h
  | some caps =>
    rw [hm] at h
    exact collectParams_values_nonempty (tokenParams ts) caps r h q hq

/-- C10 witness: the general part at a concrete pattern, path and binding. -/
theorem c10_witness : ¬ ("hello".toList = []) :=
  c10_empty_captures_omitted.2 (tokenize "posts/{slug}") "posts/hello".toList
    [("slug".toList, "hello".toList)] (by decide)
    ("slug".toList, "hello".toList) (by simp)

/-! ## C1: streaming cancellation -/

/-- C1 counterexample: consuming exactly one row from the piqit `stream()`
over a 1000-item enumeration first runs `exec()`, resolving all 1000
enumerated items — far more than the consumed row plus the default
concurrency limit of 50 the claim allows. -/
theorem c1_counterexample_piqit_stream_eager :
    (piqitStreamTake1 (List.range 1000)).1.length = 1000 ∧
    ¬ (1000 ≤ 1 + 50) := by
  exact ⟨by simp [piqitStreamTake1], by decide⟩

/-- The items the core stream resolves before the first yield form a prefix
of the enumeration. -/
theorem coreStream_front {P : Type} [DecidableEq P] (pred : P → Bool)
    (items : List P) :
    (coreStreamTake1 true pred items).1.isPrefixOf items = true := by
  induction items with
  | nil => simp [coreStreamTake1, List.isPrefixOf]
  | cons p ps ih =>
    by_cases hp : pred p <;> simp [coreStreamTake1, hp, List.isPrefixOf, ih]

theorem coreStream_earlier_fail {P : Type} (pred : P → Bool) (items : List P) :
    (coreStreamTake1 true pred items).1.dropLast.all (fun q => !pred q) = true := by
  induction items with
  | nil => simp [coreStreamTake1]
  | cons p ps ih =>
    by_cases hp : pred p
    · simp [coreStreamTake1, hp]
    · have h1 : coreStreamTake1 true pred (p :: ps) =
          (p :: (coreStreamTake1 true pred ps).1, (coreStreamTake1 true pred ps).2) := by
        simp [coreStreamTake1, hp]
      rw [h1]
      rcases hr : (coreStreamTake1 true pred ps).1 with _ | ⟨a, as⟩
      · simp [hp]
      · rw [hr] at ih
        simp only [List.dropLast_cons₂, List.all_cons, hp, Bool.not_false,
          Bool.true_and]
        exact ih

theorem coreStream_yield {P : Type} (pred : P → Bool) (items : List P) (p : P)
    (h : (coreStreamTake1 true pred items).2 = some p) :
    pred p = true ∧ (coreStreamTake1 true pred items).1.getLast? = some p := by
  induction items with
  | nil => simp [coreStreamTake1] at h
  | cons q ps ih =>
    by_cases hq : pred q
    · simp only [coreStreamTake1, hq, if_true, Option.some.injEq] at h
      subst h
      simp [coreStreamTake1, hq]
    · have h1 : coreStreamTake1 true pred (q :: ps) =
          (q :: (coreStreamTake1 true pred ps).1, (coreStreamTake1 true pred ps).2) := by
        simp [coreStreamTake1, hq]
      rw [h1] at h
      have h2 := ih h
      refine ⟨h2.1, ?_⟩
      rw [h1]
      rcases hr : (coreStreamTake1 true pred ps).1 with _ | ⟨a, as⟩
      · rw [hr] at h2
        simp at h2
      · rw [hr] at h2
        simpa [List.getLast?_cons_cons] using h2.2

/-- C1 (amended): the core `stream()` is pull-based and sequential, so
consuming exactly one row resolves facets only for the enumerated items up
to and including the first filter-passing one — every earlier processed
item failed the filter, no later item is pulled at all, and without filter
constraints exactly the consumed item is resolved; the piqit `stream()`,
by contrast, eagerly resolves every enumerated item (see the
counterexample). -/
theorem c1_core_stream_stops_at_first_row {P : Type} [DecidableEq P]
    (pred : P → Bool) (items : List P) :
    (∀ p rest, items = p :: rest →
      coreStreamTake1 false pred items = ([p], some p)) ∧
    ((coreStreamTake1 true pred items).1.isPrefixOf items = true ∧
      (coreStreamTake1 true pred items).1.dropLast.all (fun q => !pred q) = true) ∧
    (∀ p, (coreStreamTake1 true pred items).2 = some p →
      pred p = true ∧ (coreStreamTake1 true pred items).1.getLast? = some p) := by
  refine ⟨?_, ⟨coreStream_front pred items, coreStream_earlier_fail pred items⟩,
    fun p h => coreStream_yield pred items p h⟩
  intro p rest h
  subst h
  simp [coreStreamTake1]

/-- C1 witness: the core stream at a concrete filtered enumeration — the
yielded item passes the filter and is the last item resolved. -/
theorem c1_witness :
    (("b" == "b") : Bool) = true ∧
    (coreStreamTake1 true (fun s => s == "b") ["a", "b", "c"]).1.getLast? =
      some "b" :=
  (c1_core_stream_stops_at_first_row (fun s => s == "b") ["a", "b", "c"]).2.2
    "b" (by decide)

/-! ## C4: the build/match round trip -/

/-- C4 counterexample: the parameter map `{a: "x-y", b: "z"}` for the
pattern `{a}-{b}` satisfies the claim's conditions (required parameters
present, values non-empty and free of path separators), yet
`match(build(params))` returns `{a: "x", b: "y-z"}`, not the original map
(the stop-character class excluding `/` and `-` cuts `a`'s capture at the
first `-`). -/
theorem c4_counterexample_roundtrip_fails :
    buildPath (tokenize "{a}-{b}") [("a".toList, "x-y".toList), ("b".toList, "z".toList)] =
      some "x-y-z".toList ∧
    matchPatternTok (tokenize "{a}-{b}") "x-y-z".toList =
      some [("a".toList, "x".toList), ("b".toList, "y-z".toList)] ∧
    ¬ ([("a".toList, "x".toList), ("b".toList, "y-z".toList)] =
        [("a".toList, "x-y".toList), ("b".toList, "z".toList)]) := by
  exact ⟨by decide, by decide, by decide⟩

/-! ### Round-trip helper lemmas -/

theorem takeWhile_append_stop (p : Char → Bool) (v r : List Char)
    (hv : ∀ c ∈ v, p c = true)
    (hr : r = [] ∨ ∃ c r', r = c :: r' ∧ p c = false) :
    (v ++ r).takeWhile p = v := by
  induction v with
  | nil =>
    rcases hr with h | ⟨c, r', hr1, hr2⟩
    · simp [h]
    · simp [hr1, List.takeWhile_cons, hr2]
  | cons a v' ih =>
    have ha := hv a (by simp)
    simp only [List.cons_append, List.takeWhile_cons, ha, if_true]
    rw [ih fun c hc => hv c (by simp [hc])]

theorem isPrefixOf_append_self (s r : List Char) :
    s.isPrefixOf (s ++ r) = true := by
  induction s with
  | nil => simp [List.isPrefixOf]
  | cons c cs ih => simp [List.isPrefixOf, ih]

theorem firstSome_cons_some {α : Type} (k : Nat) (ks : List Nat)
    (f : Nat → Option α) (y : α) (h : f k = some y) :
    firstSome (k :: ks) f = some y := by
  unfold firstSome
  rw [h]

theorem descFrom_pos (n : Nat) (h : 0 < n) :
    descFrom n = n :: descFrom (n - 1) := by
  cases n with
  | zero => cases h
  | succ m => rfl

/-- The `lit` element consumes exactly its literal text. -/
theorem matchElems_lit_consume (s r : List Char) (es : List RElem)
    (caps : List (Option (List Char))) (h : matchElems es r = some caps) :
    matchElems (RElem.lit s :: es) (s ++ r) = some caps := by
  show (if s.isPrefixOf (s ++ r) then matchElems es ((s ++ r).drop s.length)
      else none) = some caps
  rw [if_pos (isPrefixOf_append_self s r), List.drop_left]
  exact h

/-- A greedy `([^excl]+)` group whose value fills the maximal run captures
exactly that value on the first candidate. -/
theorem matchElems_reqClass_step (excl : List Char) (es : List RElem)
    (v r : List Char) (caps : List (Option (List Char)))
    (hv : ¬ v = []) (hvc : ∀ c ∈ v, ¬ c ∈ excl)
    (hr : r = [] ∨ ∃ c r', r = c :: r' ∧ c ∈ excl)
    (h : matchElems es r = some caps) :
    matchElems (RElem.reqClass excl :: es) (v ++ r) = some (some v :: caps) := by
  have hm : ((v ++ r).takeWhile fun c => ¬ c ∈ excl).length = v.length := by
    rw [takeWhile_append_stop]
    · exact fun c hc => decide_eq_true (hvc c hc)
    · rcases hr with h1 | ⟨c, r', h1, h2⟩
      · exact Or.inl h1
      · exact Or.inr ⟨c, r', h1, decide_eq_false (not_not_intro h2)⟩
  have hstep : (matchElems es ((v ++ r).drop v.length)).map
      (fun cps => some ((v ++ r).take v.length) :: cps) = some (some v :: caps) := by
    rw [List.drop_left, List.take_left, h]
    rfl
  show firstSome (descFrom ((v ++ r).takeWhile fun c => ¬ c ∈ excl).length)
      (fun k => (matchElems es ((v ++ r).drop k)).map
        (fun cps => some ((v ++ r).take k) :: cps)) = some (some v :: caps)
  rw [hm, descFrom_pos v.length (List.length_pos.mpr hv)]
  exact firstSome_cons_some _ _ _ _ hstep

/-- A present optional segment `(?:/([^/]+))?` whose value fills the next
segment captures exactly that value on the first (present) branch. -/
theorem matchElems_optSeg_present (es : List RElem) (v r : List Char)
    (caps : List (Option (List Char)))
    (hv : ¬ v = []) (hvc : ∀ c ∈ v, ¬ c = '/')
    (hr : r = [] ∨ ∃ r', r = '/' :: r')
    (h : matchElems es r = some caps) :
    matchElems (RElem.optSeg :: es) ('/' :: (v ++ r)) = some (some v :: caps) := by
  have hm : ((v ++ r).takeWhile fun c => ¬ c = '/').length = v.length := by
    rw [takeWhile_append_stop]
    · exact fun c hc => decide_eq_true (hvc c hc)
    · rcases hr with h1 | ⟨r', h1⟩
      · exact Or.inl h1
      · exact Or.inr ⟨'/', r', h1, decide_eq_false (not_not_intro rfl)⟩
  have hstep : (matchElems es ((v ++ r).drop v.length)).map
      (fun cps => some ((v ++ r).take v.length) :: cps) = some (some v :: caps) := by
    rw [List.drop_left, List.take_left, h]
    rfl
  have hfs : firstSome (descFrom ((v ++ r).takeWhile fun c => ¬ c = '/').length)
      (fun k => (matchElems es ((v ++ r).drop k)).map
        (fun cps => some ((v ++ r).take k) :: cps)) = some (some v :: caps) := by
    rw [hm, descFrom_pos v.length (List.length_pos.mpr hv)]
    exact firstSome_cons_some _ _ _ _ hstep
  show (match firstSome (descFrom ((v ++ r).takeWhile fun c => ¬ c = '/').length)
      (fun k => (matchElems es ((v ++ r).drop k)).map
        (fun cps => some ((v ++ r).take k) :: cps)) with
    | some x => some x
    | none => (matchElems es ('/' :: (v ++ r))).map fun cps => none :: cps) =
      some (some v :: caps)
  rw [hfs]

/-- The final `(.*)` group captures the whole remaining input. -/
theorem matchElems_splat_end (v : List Char) (hv : ¬ v = []) :
    matchElems [RElem.splat] v = some [some v] := by
  show firstSome (descFrom0 v.length)
      (fun k => (matchElems [] (v.drop k)).map
        (fun cps => some (v.take k) :: cps)) = some [some v]
  have h1 : descFrom0 v.length = v.length :: (descFrom (v.length - 1) ++ [0]) := by
    unfold descFrom0
    rw [descFrom_pos v.length (List.length_pos.mpr hv)]
    rfl
  rw [h1]
  apply firstSome_cons_some
  rw [List.drop_length, List.take_length]
  rfl

/-- When the next token is a literal, the path built from the remaining
tokens starts with that literal's first character. -/
theorem buildPath_head (c : Char) (w : List Char) (rest2 : List Token)
    (ps : List (List Char × List Char)) (r : List Char)
    (hf : fitsAt ps (.literal (c :: w) :: rest2) = true)
    (hb : buildPath (.literal (c :: w) :: rest2) ps = some r) :
    ∃ r', r = c :: r' := by
  rcases rest2 with _ | ⟨t2, rest3⟩
  · replace hb : (buildPath [] ps).map ((c :: w) ++ ·) = some r := hb
    rw [Option.map_eq_some'] at hb
    obtain ⟨r0, _, hr0⟩ := hb
    exact ⟨w ++ r0, by simp [← hr0]⟩
  · rcases t2 with ⟨s2⟩ | ⟨n2, ty2⟩
    · replace hb : (buildPath (.literal s2 :: rest3) ps).map ((c :: w) ++ ·) =
        some r := hb
      rw [Option.map_eq_some'] at hb
      obtain ⟨r0, _, hr0⟩ := hb
      exact ⟨w ++ r0, by simp [← hr0]⟩
    · cases ty2 with
      | optional =>
        have hf2 : fitsAt ps (.param n2 .optional :: rest3) = true := hf
        rw [show fitsAt ps (.param n2 .optional :: rest3) =
          (match ps.lookup n2 with
            | some v => valOk .optional v rest3 && fitsAt ps rest3
            | none => false) from rfl] at hf2
        cases hlk : ps.lookup n2 with
        | none => rw [hlk] at hf2; cases hf2
        | some v =>
          replace hb : (if (c :: w).getLast? = some '/' then
              match ps.lookup n2 with
              | some v => (buildPath rest3 ps).map (fun r => (c :: w) ++ (v ++ r))
              | none => (buildPath rest3 ps).map (fun r => (c :: w).dropLast ++ r)
            else
              match ps.lookup n2 with
              | some v => (buildPath rest3 ps).map (fun r => (c :: w) ++ (v ++ r))
              | none => (buildPath rest3 ps).map (fun r => (c :: w) ++ r)) =
            some r := hb
          rw [hlk] at hb
          by_cases hl : (c :: w).getLast? = some '/'
          · rw [if_pos hl, Option.map_eq_some'] at hb
            obtain ⟨r0, _, hr0⟩ := hb
            exact ⟨w ++ (v ++ r0), by simp [← hr0]⟩
          · rw [if_neg hl, Option.map_eq_some'] at hb
            obtain ⟨r0, _, hr0⟩ := hb
            exact ⟨w ++ (v ++ r0), by simp [← hr0]⟩
      | required =>
        replace hb : (buildPath (.param n2 .required :: rest3) ps).map
            ((c :: w) ++ ·) = some r := hb
        rw [Option.map_eq_some'] at hb
        obtain ⟨r0, _, hr0⟩ := hb
        exact ⟨w ++ r0, by simp [← hr0]⟩
      | splat =>
        replace hb : (buildPath (.param n2 .splat :: rest3) ps).map
            ((c :: w) ++ ·) = some r := hb
        rw [Option.map_eq_some'] at hb
        obtain ⟨r0, _, hr0⟩ := hb
        exact ⟨w ++ r0, by simp [← hr0]⟩

/-- The inductive step for a non-folded literal token. -/
theorem roundtrip_lit_step (s : List Char) (rest : List Token)
    (ps : List (List Char × List Char)) (b : List Char)
    (hb2 : (buildPath rest ps).map (s ++ ·) = some b)
    (ihm : ∀ r, buildPath rest ps = some r →
      matchElems (compileRegex rest) r = some (capsOf rest ps))
    (hcr : compileRegex (.literal s :: rest) = RElem.lit s :: compileRegex rest) :
    matchElems (compileRegex (.literal s :: rest)) b =
      some (capsOf (.literal s :: rest) ps) := by
  rw [Option.map_eq_some'] at hb2
  obtain ⟨r, hr, hbr⟩ := hb2
  subst hbr
  rw [hcr]
  have hcaps : capsOf (.literal s :: rest) ps = capsOf rest ps := rfl
  rw [hcaps]
  exact matchElems_lit_consume s r _ _ (ihm r hr)

/-- Core round trip on the emitted regex: on a slash-delimited pattern with
fitting parameter values, matching the built path yields exactly one capture
per parameter, holding its value. -/
theorem roundtrip_aux :
    ∀ (k : Nat) (ts : List Token), ts.length ≤ k →
      ∀ (ps : List (List Char × List Char)) (b : List Char),
        goodTokens ts = true → fitsAt ps ts = true → buildPath ts ps = some b →
        matchElems (compileRegex ts) b = some (capsOf ts ps) := by
  intro k
  induction k with
  | zero =>
    intro ts hlen ps b _ _ hb
    rcases ts with _ | ⟨t, rest⟩
    · replace hb : some ([] : List Char) = some b := hb
      injection hb with hb
      subst hb
      rfl
    · simp at hlen
  | succ k ih =>
    intro ts hlen ps b hg hf hb
    rcases ts with _ | ⟨t, rest⟩
    · replace hb : some ([] : List Char) = some b := hb
      injection hb with hb
      subst hb
      rfl
    · rcases t with ⟨s⟩ | ⟨n, ty⟩
      · -- literal head
        rcases rest with _ | ⟨t2, rest2⟩
        · -- ts = [.literal s]
          have hg2 : (decide (¬ s = []) && goodTokens []) = true := hg
          exact roundtrip_lit_step s [] ps b hb
            (fun r hr => ih [] (by simp) ps r (Bool.and_eq_true_iff.mp hg2).2 hf hr) rfl
        · rcases t2 with ⟨s2⟩ | ⟨n2, ty2⟩
          · -- literal then literal
            have hg2 : (decide (¬ s = []) &&
                goodTokens (.literal s2 :: rest2)) = true := hg
            exact roundtrip_lit_step s (.literal s2 :: rest2) ps b hb
              (fun r hr => ih (.literal s2 :: rest2)
                (by simp at hlen ⊢; omega) ps r (Bool.and_eq_true_iff.mp hg2).2 hf hr) rfl
          · cases ty2 with
            | required =>
              have hg2 : (decide (¬ s = []) &&
                  goodTokens (.param n2 .required :: rest2)) = true := hg
              exact roundtrip_lit_step s (.param n2 .required :: rest2) ps b hb
                (fun r hr => ih (.param n2 .required :: rest2)
                  (by simp at hlen ⊢; omega) ps r (Bool.and_eq_true_iff.mp hg2).2 hf hr) rfl
            | splat =>
              have hg2 : (decide (¬ s = []) &&
                  goodTokens (.param n2 .splat :: rest2)) = true := hg
              exact roundtrip_lit_step s (.param n2 .splat :: rest2) ps b hb
                (fun r hr => ih (.param n2 .splat :: rest2)
                  (by simp at hlen ⊢; omega) ps r (Bool.and_eq_true_iff.mp hg2).2 hf hr) rfl
            | optional =>
              -- the folded literal/optional pair
              have hg2 : ((decide (s.getLast? = some '/') && optFollowOk rest2) &&
                  goodTokens rest2) = true := hg
              obtain ⟨hg3, hgr⟩ := Bool.and_eq_true_iff.mp hg2
              obtain ⟨hsl, hgo⟩ := Bool.and_eq_true_iff.mp hg3
              have hslash : s.getLast? = some '/' := of_decide_eq_true hsl
              have hf2 : (match ps.lookup n2 with
                | some v => valOk .optional v rest2 && fitsAt ps rest2
                | none => false) = true := hf
              cases hlk : ps.lookup n2 with
              | none => rw [hlk] at hf2; exact Bool.noConfusion hf2
              | some v =>
                rw [hlk] at hf2
                obtain ⟨hvk, hfr⟩ := Bool.and_eq_true_iff.mp hf2
                obtain ⟨hv1, hv2⟩ := Bool.and_eq_true_iff.mp hvk
                have hvne : ¬ v = [] := of_decide_eq_true hv1
                have hvc : ∀ c ∈ v, ¬ c = '/' := fun c hc =>
                  of_decide_eq_true (List.all_eq_true.mp hv2 c hc)
                replace hb : (if s.getLast? = some '/' then
                    match ps.lookup n2 with
                    | some v => (buildPath rest2 ps).map (fun r => s ++ (v ++ r))
                    | none => (buildPath rest2 ps).map (fun r => s.dropLast ++ r)
                  else
                    match ps.lookup n2 with
                    | some v => (buildPath rest2 ps).map (fun r => s ++ (v ++ r))
                    | none => (buildPath rest2 ps).map (fun r => s ++ r)) =
                    some b := hb
                rw [if_pos hslash, hlk, Option.map_eq_some'] at hb
                obtain ⟨r, hr, hbr⟩ := hb
                subst hbr
                have hml := ih rest2 (by simp at hlen ⊢; omega) ps r hgr hfr hr
                have hrshape : r = [] ∨ ∃ r', r = '/' :: r' := by
                  rcases rest2 with _ | ⟨t3, rest3⟩
                  · left
                    replace hr : some ([] : List Char) = some r := hr
                    injection hr with hr
                    exact hr.symm
                  · rcases t3 with ⟨s3⟩ | ⟨n3, ty3⟩
                    · rcases s3 with _ | ⟨c3, w3⟩
                      · exact Bool.noConfusion hgo
                      · have hc3 : c3 = '/' := of_decide_eq_true hgo
                        subst hc3
                        obtain ⟨r', hr'⟩ := buildPath_head '/' w3 rest3 ps r hfr hr
                        exact Or.inr ⟨r', hr'⟩
                    · exact Bool.noConfusion hgo
                have hsne : s ≠ [] := by
                  intro h
                  rw [h] at hslash
                  cases hslash
                have hglast : s.getLast hsne = '/' := by
                  have h2 := List.getLast?_eq_getLast s hsne
                  rw [hslash] at h2
                  injection h2 with h2
                  exact h2.symm
                have hs : s.dropLast ++ ['/'] = s := by
                  rw [← hglast]
                  exact List.dropLast_concat_getLast hsne
                have hb2 : s ++ (v ++ r) = s.dropLast ++ ('/' :: (v ++ r)) :=
                  calc s ++ (v ++ r)
                      = (s.dropLast ++ ['/']) ++ (v ++ r) := by rw [hs]
                    _ = s.dropLast ++ ('/' :: (v ++ r)) :=
                        List.append_assoc s.dropLast ['/'] (v ++ r)
                have hopt := matchElems_optSeg_present (compileRegex rest2) v r _
                  hvne hvc hrshape hml
                have hcaps : capsOf (.literal s :: .param n2 .optional :: rest2) ps =
                    ps.lookup n2 :: capsOf rest2 ps := rfl
                by_cases hdl : s.dropLast = []
                · have hcr : compileRegex (.literal s :: .param n2 .optional :: rest2) =
                      RElem.optSeg :: compileRegex rest2 := by
                    show (if s.getLast? = some '/' then
                        (if s.dropLast = [] then [] else [RElem.lit s.dropLast]) ++
                          RElem.optSeg :: compileRegex rest2
                      else RElem.lit s :: RElem.optSeg :: compileRegex rest2) = _
                    rw [if_pos hslash, if_pos hdl]
                    rfl
                  have hbe : s ++ (v ++ r) = '/' :: (v ++ r) := by
                    rw [hb2, hdl]
                    rfl
                  rw [hcr, hbe, hcaps, hlk]
                  exact hopt
                · have hcr : compileRegex (.literal s :: .param n2 .optional :: rest2) =
                      RElem.lit s.dropLast :: RElem.optSeg :: compileRegex rest2 := by
                    show (if s.getLast? = some '/' then
                        (if s.dropLast = [] then [] else [RElem.lit s.dropLast]) ++
                          RElem.optSeg :: compileRegex rest2
                      else RElem.lit s :: RElem.optSeg :: compileRegex rest2) = _
                    rw [if_pos hslash, if_neg hdl]
                    rfl
                  rw [hcr, hb2, hcaps, hlk]
                  exact matchElems_lit_consume s.dropLast ('/' :: (v ++ r)) _ _ hopt
      · cases ty with
        | optional => exact Bool.noConfusion hg
        | required =>
          have hg2 : (reqFollowOk rest && goodTokens rest) = true := hg
          obtain ⟨hgf, hgr⟩ := Bool.and_eq_true_iff.mp hg2
          have hf2 : (match ps.lookup n with
            | some v => valOk .required v rest && fitsAt ps rest
            | none => false) = true := hf
          cases hlk : ps.lookup n with
          | none => rw [hlk] at hf2; exact Bool.noConfusion hf2
          | some v =>
            rw [hlk] at hf2
            obtain ⟨hvk, hfr⟩ := Bool.and_eq_true_iff.mp hf2
            obtain ⟨hv1, hv2⟩ := Bool.and_eq_true_iff.mp hvk
            have hvne : ¬ v = [] := of_decide_eq_true hv1
            have hvc : ∀ c ∈ v, ¬ c ∈ reqExcl rest := fun c hc =>
              of_decide_eq_true (List.all_eq_true.mp hv2 c hc)
            replace hb : (match ps.lookup n with
              | some v => (buildPath rest ps).map (fun r => v ++ r)
              | none => none) = some b := hb
            rw [hlk, Option.map_eq_some'] at hb
            obtain ⟨r, hr, hbr⟩ := hb
            subst hbr
            have hml := ih rest (by simp at hlen ⊢; omega) ps r hgr hfr hr
            have hrshape : r = [] ∨ ∃ c r', r = c :: r' ∧ c ∈ reqExcl rest := by
              rcases rest with _ | ⟨t2, rest2⟩
              · left
                replace hr : some ([] : List Char) = some r := hr
                injection hr with hr
                exact hr.symm
              · rcases t2 with ⟨s2⟩ | ⟨n2, ty2⟩
                · rcases s2 with _ | ⟨c2, w2⟩
                  · exact Bool.noConfusion hgf
                  · right
                    obtain ⟨r', hr'⟩ := buildPath_head c2 w2 rest2 ps r hfr hr
                    refine ⟨c2, r', hr', ?_⟩
                    show c2 ∈ (if c2 = '/' then ['/'] else ['/', c2])
                    by_cases hc2 : c2 = '/' <;> simp [hc2]
                · exact Bool.noConfusion hgf
            have hcr : compileRegex (.param n .required :: rest) =
                RElem.reqClass (reqExcl rest) :: compileRegex rest := rfl
            have hcaps : capsOf (.param n .required :: rest) ps =
                ps.lookup n :: capsOf rest ps := rfl
            rw [hcr, hcaps, hlk]
            exact matchElems_reqClass_step (reqExcl rest) _ v r _ hvne hvc hrshape hml
        | splat =>
          have hg2 : rest.isEmpty = true := hg
          have hrest : rest = [] := by
            cases rest with
            | nil => rfl
            | cons _ _ => exact Bool.noConfusion hg2
          subst hrest
          have hf2 : (match ps.lookup n with
            | some v => valOk .splat v [] && fitsAt ps []
            | none => false) = true := hf
          cases hlk : ps.lookup n with
          | none => rw [hlk] at hf2; exact Bool.noConfusion hf2
          | some v =>
            rw [hlk] at hf2
            obtain ⟨hvk, _⟩ := Bool.and_eq_true_iff.mp hf2
            have hvne : ¬ v = [] := of_decide_eq_true hvk
            replace hb : (match ps.lookup n with
              | some v => (buildPath [] ps).map (fun r => v ++ r)
              | none => buildPath [] ps) = some b := hb
            rw [hlk] at hb
            replace hb : some (v ++ []) = some b := hb
            injection hb with hb
            subst hb
            have hcaps : capsOf [.param n .splat] ps = [ps.lookup n] := rfl
            have hcr : compileRegex [.param n .splat] = [RElem.splat] := rfl
            rw [hcr, hcaps, hlk, List.append_nil]
            exact matchElems_splat_end v hvne

/-- Looking up the names of an aligned, duplicate-free map returns its
values in order. -/
theorem lookup_align :
    ∀ (ps : List (List Char × List Char)) (ns : List (List Char)),
      ps.map Prod.fst = ns → ns.Nodup →
      ns.map (fun n => ps.lookup n) = ps.map (fun p => some p.2) := by
  intro ps
  induction ps with
  | nil =>
    intro ns h _
    rw [← h]
    rfl
  | cons p ps' ih =>
    intro ns h hd
    obtain ⟨n0, v0⟩ := p
    rcases ns with _ | ⟨m0, ns'⟩
    · cases h
    · simp only [List.map_cons, List.cons.injEq] at h
      obtain ⟨hn0, hns'⟩ := h
      subst hn0
      simp only [List.nodup_cons] at hd
      have hhead : List.lookup n0 ((n0, v0) :: ps') = some v0 := by
        simp [List.lookup]
      have htail : ns'.map (fun n => List.lookup n ((n0, v0) :: ps')) =
          ns'.map (fun n => List.lookup n ps') := by
        apply List.map_congr_left
        intro m hm
        have hne : m ≠ n0 := fun hh => hd.1 (hh ▸ hm)
        simp [List.lookup, beq_false_of_ne hne]
      simp only [List.map_cons, hhead, htail, ih ns' hns' hd.2]

/-- `collectParams` on aligned, non-empty captures returns exactly the
parameter map. -/
theorem collect_of_aligned :
    ∀ (tp : List (List Char × PType)) (qs : List (List Char × List Char)),
      tp.map Prod.fst = qs.map Prod.fst → (∀ q ∈ qs, ¬ q.2 = []) →
      collectParams tp (qs.map fun q => some q.2) = some qs := by
  intro tp
  induction tp with
  | nil =>
    intro qs h _
    rcases qs with _ | ⟨q, qs'⟩
    · rfl
    · cases h
  | cons p tp' ih =>
    intro qs h hne
    obtain ⟨n, ty⟩ := p
    rcases qs with _ | ⟨⟨n', v⟩, qs'⟩
    · cases h
    · simp only [List.map_cons, List.cons.injEq] at h
      obtain ⟨hn, htl⟩ := h
      subst hn
      have hv : ¬ v = [] := hne (n, v) (by simp)
      show (if v = [] then
          if ty = .required then none else collectParams tp' (qs'.map fun q => some q.2)
        else (collectParams tp' (qs'.map fun q => some q.2)).map
          (fun r => (n, v) :: r)) = some ((n, v) :: qs')
      rw [if_neg hv, ih qs' htl (fun q hq => hne q (by simp [hq]))]
      rfl

/-- A pattern's parameters all have non-empty values under `fitsAt`. -/
theorem fits_nonempty :
    ∀ (ts : List Token) (ps : List (List Char × List Char)),
      fitsAt ps ts = true →
      ∀ n, n ∈ pnames ts → ∃ v, ps.lookup n = some v ∧ ¬ v = [] := by
  intro ts
  induction ts with
  | nil =>
    intro ps _ n hn
    replace hn : n ∈ ([] : List (List Char)) := hn
    cases hn
  | cons t rest ih =>
    intro ps hf n hn
    rcases t with ⟨s⟩ | ⟨m, ty⟩
    · exact ih ps hf n hn
    · replace hf : (match ps.lookup m with
        | some v => valOk ty v rest && fitsAt ps rest
        | none => false) = true := hf
      cases hlk : ps.lookup m with
      | none => rw [hlk] at hf; exact Bool.noConfusion hf
      | some v =>
        rw [hlk] at hf
        obtain ⟨hvk, hfr⟩ := Bool.and_eq_true_iff.mp hf
        have hpn : pnames (.param m ty :: rest) = m :: pnames rest := rfl
        rw [hpn] at hn
        rcases List.mem_cons.mp hn with h | h
        · subst h
          refine ⟨v, hlk, ?_⟩
          cases ty with
          | required => exact of_decide_eq_true (Bool.and_eq_true_iff.mp hvk).1
          | optional => exact of_decide_eq_true (Bool.and_eq_true_iff.mp hvk).1
          | splat => exact of_decide_eq_true hvk
        · exact ih ps hfr n h

/-- In a duplicate-free map, lookup of a member's key returns its value. -/
theorem lookup_mem_nodup :
    ∀ (ps : List (List Char × List Char)), (ps.map Prod.fst).Nodup →
      ∀ q ∈ ps, ps.lookup q.1 = some q.2 := by
  intro ps
  induction ps with
  | nil => intro _ q hq; cases hq
  | cons p ps' ih =>
    intro hd q hq
    simp only [List.map_cons, List.nodup_cons] at hd
    rcases List.mem_cons.mp hq with h | h
    · subst h
      simp [List.lookup]
    · have hne : ¬ p.1 = q.1 := by
        intro hh
        exact hd.1 (hh ▸ List.mem_map_of_mem Prod.fst h)
      have : List.lookup q.1 (p :: ps') = List.lookup q.1 ps' := by
        simp [List.lookup, beq_false_of_ne (Ne.symm hne)]
      rw [this]
      exact ih hd.2 q h

/-- C4 (amended): the round trip `match(build(params)) == params` holds for
every compilable pattern of the slash-delimited class — parameters separated
by literal text: a required parameter is followed by a literal or ends the
pattern, an optional parameter sits between a `/`-terminated literal and a
`/`-initial literal (or the end), a splat parameter is final — and every
parameter map with distinct names that assigns each parameter (optional
included) a non-empty value free of `/` and of the required parameter's stop
character (the first character of the following literal).  The original
claim fails without the stop-character restriction (see the
counterexample). -/
theorem c4_roundtrip_slash_delimited (pat : String)
    (ps : List (List Char × List Char)) (b : List Char)
    (hg : goodTokens (tokenize pat) = true)
    (hf : fitsAt ps (tokenize pat) = true)
    (hn : ps.map Prod.fst = pnames (tokenize pat))
    (hd : (pnames (tokenize pat)).Nodup)
    (hb : buildPath (tokenize pat) ps = some b) :
    matchPatternTok (tokenize pat) b = some ps := by
  have hme := roundtrip_aux (tokenize pat).length (tokenize pat) le_rfl ps b hg hf hb
  have hcaps : capsOf (tokenize pat) ps = ps.map (fun p => some p.2) := by
    have halign := lookup_align ps (pnames (tokenize pat)) hn hd
    calc capsOf (tokenize pat) ps
        = (pnames (tokenize pat)).map (fun n => ps.lookup n) := by
          simp only [capsOf, pnames, List.map_map]
          rfl
      _ = ps.map (fun p => some p.2) := halign
  have hvals : ∀ q ∈ ps, ¬ q.2 = [] := by
    intro q hq
    have hq1 : q.1 ∈ pnames (tokenize pat) := hn ▸ List.mem_map_of_mem Prod.fst hq
    obtain ⟨v, hv1, hv2⟩ := fits_nonempty (tokenize pat) ps hf q.1 hq1
    have hlq : ps.lookup q.1 = some q.2 :=
      lookup_mem_nodup ps (hn ▸ hd) q hq
    rw [hlq] at hv1
    injection hv1 with hv1
    rw [hv1]
    exact hv2
  show (match matchElems (compileRegex (tokenize pat)) b with
    | none => none
    | some caps => collectParams (tokenParams (tokenize pat)) caps) = some ps
  rw [hme, hcaps]
  exact collect_of_aligned (tokenParams (tokenize pat)) ps hn.symm hvals

/-- C4 witness: the round trip at the spec's own example pattern
`posts/{?date}/{slug}.md` with both parameters set. -/
theorem c4_witness :
    matchPatternTok (tokenize "posts/{?date}/{slug}.md")
        "posts/2024-01-01/hello.md".toList =
      some [("date".toList, "2024-01-01".toList), ("slug".toList, "hello".toList)] :=
  c4_roundtrip_slash_delimited "posts/{?date}/{slug}.md"
    [("date".toList, "2024-01-01".toList), ("slug".toList, "hello".toList)]
    "posts/2024-01-01/hello.md".toList
    (by decide) (by decide) (by decide) (by decide) (by decide)

end Piq
